/-
Verification of the Smart-Resume-Parser core pipeline
(src/streamlit_app.py) as a shallow embedding in Lean 4.

The document readers (read_pdf / read_docx / read_resume) perform I/O and
are external collaborators; the core functions are embedded from the raw
text they return.  Python strings are modelled as Lean `String` / `List
Char`; Python's `re` patterns used here are simple enough that their
backtracking behaviour is reproduced exactly by the specialised matchers
below.
-/
import Mathlib

set_option maxRecDepth 100000

namespace ResumeParser

/-- Python's `\s` whitespace class, restricted to the ASCII range that
occurs in resume texts: space, tab, newline, carriage return, vertical
tab, form feed (Python also accepts some further Unicode spaces; they
behave identically for every property proved here). -/
def isPySpace (c : Char) : Bool :=
  c = ' ' || c = '\t' || c = '\n' || c = '\r' || c = '\x0b' || c = '\x0c'

/-- `re.sub(r"\s+", " ", text)` on a character list: every maximal run of
whitespace characters is replaced by a single space. -/
def subWs : List Char → List Char
  | [] => []
  | [c] => if isPySpace c then [' '] else [c]
  | c :: d :: cs =>
    if isPySpace c && isPySpace d then subWs (d :: cs)
    else (if isPySpace c then ' ' else c) :: subWs (d :: cs)

/-- Python `str.strip()` on a character list: drop whitespace from both
ends. -/
def pyStrip (l : List Char) : List Char :=
  ((l.dropWhile isPySpace).reverse.dropWhile isPySpace).reverse

/-- `clean_text`: aggressive cleaning used for skills/email/phone
extraction — collapse all whitespace runs to single spaces, then strip.
(The `isinstance` guard is vacuous here because the input is typed.) -/
def clean_text (text : String) : String :=
  String.mk (pyStrip (subWs text.toList))

/- ### Idempotence machinery for `clean_text` -/

theorem subWs_head (d : Char) (ds : List Char) :
    (subWs (d :: ds)).head? = some (if isPySpace d then ' ' else d) := by
  induction ds generalizing d with
  | nil => cases hd : isPySpace d <;> simp [subWs, hd]
  | cons e es ih =>
    cases hd : isPySpace d <;> cases he : isPySpace e <;>
      simp [subWs, hd, he, ih e]

/-- A list is `wsNormal` if every whitespace character in it is a plain
space and no two adjacent characters are both whitespace. -/
def wsNormal (l : List Char) : Prop :=
  (∀ c ∈ l, isPySpace c = true → c = ' ') ∧
    l.Chain' (fun a b => ¬(isPySpace a = true ∧ isPySpace b = true))

theorem subWs_space_eq (l : List Char) :
    ∀ c ∈ subWs l, isPySpace c = true → c = ' ' := by
  induction l using subWs.induct with
  | case1 => simp [subWs]
  | case2 c hc =>
    intro x hx _
    simp [subWs, hc] at hx
    exact hx
  | case3 c hc =>
    intro x hx hsp
    simp [subWs, hc] at hx
    subst hx
    exact absurd hsp (by simpa using hc)
  | case4 c d cs hcd ih =>
    rw [show subWs (c :: d :: cs) = subWs (d :: cs) by simp [subWs, hcd]]
    exact ih
  | case5 c d cs hcd ih =>
    intro x hx hsp
    rw [show subWs (c :: d :: cs) =
        (if isPySpace c then ' ' else c) :: subWs (d :: cs) by
      simp [subWs, hcd]] at hx
    rcases List.mem_cons.mp hx with rfl | hx
    · cases hc : isPySpace c
      · rw [if_neg (by simp [hc])] at hsp
        exact absurd hsp (by simp [hc])
      · simp [hc]
    · exact ih x hx hsp

theorem subWs_chain (l : List Char) :
    (subWs l).Chain' (fun a b => ¬(isPySpace a = true ∧ isPySpace b = true)) := by
  induction l using subWs.induct with
  | case1 => simp [subWs]
  | case2 c hc => simp [subWs, hc]
  | case3 c hc => simp [subWs, if_neg hc]
  | case4 c d cs hcd ih =>
    rw [show subWs (c :: d :: cs) = subWs (d :: cs) by simp [subWs, hcd]]
    exact ih
  | case5 c d cs hcd ih =>
    rw [show subWs (c :: d :: cs) =
        (if isPySpace c then ' ' else c) :: subWs (d :: cs) by
      simp [subWs, hcd]]
    apply List.chain'_cons'.mpr
    refine ⟨?_, ih⟩
    intro y hy hcontra
    rw [subWs_head d cs] at hy
    simp at hy
    subst hy
    cases hc : isPySpace c <;> cases hd : isPySpace d <;> simp_all

theorem subWs_wsNormal (l : List Char) : wsNormal (subWs l) :=
  ⟨subWs_space_eq l, subWs_chain l⟩

theorem subWs_eq_self_of_wsNormal (l : List Char) (h : wsNormal l) :
    subWs l = l := by
  induction l using subWs.induct with
  | case1 => rfl
  | case2 c hc =>
    have := h.1 c (by simp) hc
    simp [subWs, hc, this]
  | case3 c hc => simp [subWs, if_neg hc]
  | case4 c d cs hcd ih =>
    have hnotboth : ¬(isPySpace c = true ∧ isPySpace d = true) :=
      (List.chain'_cons.mp h.2).1
    exact absurd (by simpa using hcd) hnotboth
  | case5 c d cs hcd ih =>
    have htail : wsNormal (d :: cs) :=
      ⟨fun x hx => h.1 x (List.mem_cons_of_mem _ hx),
       (List.chain'_cons.mp h.2).2⟩
    rw [show subWs (c :: d :: cs) =
        (if isPySpace c then ' ' else c) :: subWs (d :: cs) by
      simp [subWs, hcd]]
    rw [ih htail]
    cases hc : isPySpace c
    · simp
    · have := h.1 c (by simp) hc
      simp [this]

theorem dropWhile_head_false {p : Char → Bool} (l : List Char) :
    ∀ c ∈ (l.dropWhile p).head?, p c = false := by
  intro c hc
  have := List.head?_dropWhile_not p l
  rw [hc] at this
  simpa using this

theorem dropWhile_dropWhile (p : Char → Bool) (l : List Char) :
    (l.dropWhile p).dropWhile p = l.dropWhile p := by
  cases heq : l.dropWhile p with
  | nil => rfl
  | cons c cs =>
    have hc : p c = false := dropWhile_head_false l c (by rw [heq]; rfl)
    simp [List.dropWhile, hc]

theorem prefix_head {u v : List Char} (h : v <+: u) {c : Char}
    {cs : List Char} (hv : v = c :: cs) : u.head? = some c := by
  rcases h with ⟨t, ht⟩
  rw [hv] at ht
  rw [← ht]
  rfl

/-- A non-empty prefix of `dropWhile p u` has a head on which `p` fails;
hence applying `dropWhile p` to such a prefix changes nothing. -/
theorem dropWhile_eq_self_of_prefixOf (p : Char → Bool) (u v : List Char)
    (h : v <+: u.dropWhile p) : v.dropWhile p = v := by
  cases hv : v with
  | nil => rfl
  | cons c cs =>
    have : (u.dropWhile p).head? = some c := prefix_head h hv
    have hc : p c = false := dropWhile_head_false u c this
    simp [List.dropWhile, hc]

theorem reverse_dropWhile_reverse_prefixOf (p : Char → Bool) (u : List Char) :
    ((u.reverse.dropWhile p).reverse) <+: u := by
  have h₁ : u.reverse.dropWhile p <:+ u.reverse := List.dropWhile_suffix _
  have h₂ : ((u.reverse.dropWhile p).reverse).reverse <:+ u.reverse := by
    simpa using h₁
  exact List.reverse_suffix.mp h₂

theorem pyStrip_prefix_dropWhile (l : List Char) :
    pyStrip l <+: l.dropWhile isPySpace :=
  reverse_dropWhile_reverse_prefixOf isPySpace (l.dropWhile isPySpace)

theorem pyStrip_infixOf (l : List Char) : pyStrip l <:+: l :=
  (pyStrip_prefix_dropWhile l).isInfix.trans
    (List.dropWhile_suffix isPySpace).isInfix

theorem pyStrip_sublist (l : List Char) : (pyStrip l).Sublist l :=
  (pyStrip_infixOf l).sublist

theorem wsNormal_of_infixOf {l m : List Char} (hinf : m <:+: l)
    (h : wsNormal l) : wsNormal m :=
  ⟨fun x hx => h.1 x (hinf.sublist.mem hx), List.Chain'.infix h.2 hinf⟩

/-- Stripping an already-stripped list changes nothing. -/
theorem pyStrip_idem (l : List Char) : pyStrip (pyStrip l) = pyStrip l := by
  unfold pyStrip
  set u := l.dropWhile isPySpace with hu
  set v := (u.reverse.dropWhile isPySpace).reverse with hv
  have hpre : v <+: u := reverse_dropWhile_reverse_prefixOf isPySpace u
  have h₁ : v.dropWhile isPySpace = v := by
    have : v <+: u.dropWhile isPySpace := by
      rw [hu, dropWhile_dropWhile]
      exact hpre
    exact dropWhile_eq_self_of_prefixOf isPySpace u v this
  rw [h₁]
  have h₂ : v.reverse.dropWhile isPySpace = v.reverse := by
    rw [hv, List.reverse_reverse, dropWhile_dropWhile]
  rw [h₂, hv, List.reverse_reverse]

theorem clean_text_toList (t : String) :
    (clean_text t).toList = pyStrip (subWs t.toList) := rfl

/-- The key composition fact: cleaning a cleaned list is a no-op. -/
theorem clean_text_idem_list (l : List Char) :
    pyStrip (subWs (pyStrip (subWs l))) = pyStrip (subWs l) := by
  have h₁ : wsNormal (subWs l) := subWs_wsNormal l
  have h₂ : wsNormal (pyStrip (subWs l)) :=
    wsNormal_of_infixOf (pyStrip_infixOf _) h₁
  rw [subWs_eq_self_of_wsNormal _ h₂, pyStrip_idem]

/-- C9: The flat normalizer is idempotent: for every string `t`,
`clean_text (clean_text t) = clean_text t`. -/
theorem clean_text_idempotent (t : String) :
    clean_text (clean_text t) = clean_text t :=
  congrArg String.mk (clean_text_idem_list t.toList)

/- ### Line-preserving cleaning -/

/-- `text.split("\n")` on a character list (keeps empty pieces, like
Python's `str.split` with an explicit separator). -/
def splitOnChar (sep : Char) : List Char → List (List Char)
  | [] => [[]]
  | c :: cs =>
    let r := splitOnChar sep cs
    if c = sep then [] :: r
    else
      match r with
      | [] => [[c]]
      | h :: t => (c :: h) :: t

/-- `clean_text_keep_lines`: per-line whitespace collapsing and stripping,
dropping lines that become empty, re-joined with newlines. -/
def clean_text_keep_lines (text : String) : String :=
  String.mk (List.intercalate ['\n']
    (((splitOnChar '\n' text.toList).map (fun ln => pyStrip (subWs ln))).filter
      (fun ln => ln ≠ [])))

/- ### Email / phone extraction (`EMAIL_REGEX` / `PHONE_REGEX` findall) -/

/-- `[A-Za-z0-9._%+-]` — the local-part character class of `EMAIL_REGEX`. -/
def localChar (c : Char) : Bool :=
  c.isAlpha || c.isDigit || c = '.' || c = '_' || c = '%' || c = '+' || c = '-'

/-- `[A-Za-z0-9.-]` — the domain character class of `EMAIL_REGEX`. -/
def domainChar (c : Char) : Bool :=
  c.isAlpha || c.isDigit || c = '.' || c = '-'

/-- Backtracking search for the split of the domain run `r` into
`domain-part ++ "." ++ tld` demanded by `[A-Za-z0-9.-]+\.[A-Za-z]{2,}`:
the greedy engine tries the rightmost `'.'` position first, and the TLD is
the maximal alphabetic run after it (length ≥ 2). -/
def tryDot (r : List Char) : Nat → Option (List Char)
  | 0 => none
  | k + 1 =>
    if r.get? (k + 1) = some '.' then
      let tld := (r.drop (k + 2)).takeWhile Char.isAlpha
      if 2 ≤ tld.length then some (r.take (k + 1) ++ '.' :: tld)
      else tryDot r k
    else tryDot r k

/-- Attempt `EMAIL_REGEX` anchored at the head of `cs`; on success return
the matched characters and the number of characters consumed. -/
def matchEmailAt (cs : List Char) : Option (List Char × Nat) :=
  let lp := cs.takeWhile localChar
  if lp.isEmpty then none
  else
    match cs.drop lp.length with
    | '@' :: rest =>
      let r := rest.takeWhile domainChar
      match tryDot r r.length with
      | some dom => some (lp ++ '@' :: dom, lp.length + 1 + dom.length)
      | none => none
    | _ => none

/-- `[\s\-]` — the separator class inside `PHONE_REGEX`. -/
def phoneSep (c : Char) : Bool := isPySpace c || c = '-'

/-- `[6-9]\d{9}` — the subscriber-number core of `PHONE_REGEX`. -/
def phoneCore : List Char → Option (List Char)
  | [] => none
  | c :: rest =>
    if '6' ≤ c && c ≤ '9' then
      let ds := rest.take 9
      if ds.length = 9 && ds.all Char.isDigit then some (c :: ds) else none
    else none

/-- Attempt `PHONE_REGEX` = `(?:\+?91[\s\-]*)?[6-9]\d{9}` anchored at the
head of `cs`, reproducing the engine's backtracking: the optional prefix
group is tried first, and on failure the group is skipped (which can only
succeed when the text did not start with `'+'`). -/
def matchPhoneAt (cs : List Char) : Option (List Char × Nat) :=
  match cs with
  | '+' :: '9' :: '1' :: rest =>
    let seps := rest.takeWhile phoneSep
    match phoneCore (rest.drop seps.length) with
    | some core => some ('+' :: '9' :: '1' :: (seps ++ core), 13 + seps.length)
    | none => none
  | '9' :: '1' :: rest =>
    let seps := rest.takeWhile phoneSep
    match phoneCore (rest.drop seps.length) with
    | some core => some ('9' :: '1' :: (seps ++ core), 12 + seps.length)
    | none =>
      match phoneCore ('9' :: '1' :: rest) with
      | some core => some (core, 10)
      | none => none
  | _ =>
    match phoneCore cs with
    | some core => some (core, 10)
    | none => none

/-- `re.findall` scanning loop: try a match at every position from left to
right; after a match, resume scanning at its end.  The fuel argument (the
initial length of the list) makes the recursion structural. -/
def findallAux (matchAt : List Char → Option (List Char × Nat)) :
    Nat → List Char → List (List Char)
  | 0, _ => []
  | _ + 1, [] => []
  | fuel + 1, c :: cs =>
    match matchAt (c :: cs) with
    | some (m, k) => m :: findallAux matchAt fuel (cs.drop (k - 1))
    | none => findallAux matchAt fuel cs

def pyFindall (matchAt : List Char → Option (List Char × Nat))
    (l : List Char) : List (List Char) :=
  findallAux matchAt l.length l

def emailFindall (l : List Char) : List (List Char) := pyFindall matchEmailAt l

def phoneFindall (l : List Char) : List (List Char) := pyFindall matchPhoneAt l

/- ### `extract_basic_info` -/

/-- `list(dict.fromkeys(xs))`: deduplicate keeping first occurrences, in
order; the `seen` accumulator mirrors the set built by iteration. -/
def dedupAux {α : Type} [DecidableEq α] (seen : List α) : List α → List α
  | [] => []
  | x :: xs => if x ∈ seen then dedupAux seen xs else x :: dedupAux (x :: seen) xs

def dedupFirst {α : Type} [DecidableEq α] (l : List α) : List α := dedupAux [] l

structure BasicInfo where
  email : String
  emails : List String
  phone : String
  phones : List String
deriving Repr, DecidableEq

/-- `extract_basic_info`: primary email/phone is the first regex match (or
the sentinel `"Not found"`); the `all` lists are the deduplicated match
lists. -/
def extract_basic_info (text : String) : BasicInfo :=
  let emails := (emailFindall text.toList).map String.mk
  let phones := (phoneFindall text.toList).map String.mk
  { email := emails.headD "Not found"
    emails := dedupFirst emails
    phone := phones.headD "Not found"
    phones := dedupFirst phones }

/- ### Properties of `dedupFirst` -/

theorem dedupAux_sublist {α : Type} [DecidableEq α] (seen : List α)
    (l : List α) : (dedupAux seen l).Sublist l := by
  induction l generalizing seen with
  | nil => simp [dedupAux]
  | cons x xs ih =>
    by_cases hx : x ∈ seen
    · simp only [dedupAux, if_pos hx]
      exact (ih seen).trans (List.sublist_cons_self x xs)
    · simp only [dedupAux, if_neg hx]
      exact (ih (x :: seen)).cons₂ x

theorem dedupAux_not_mem_seen {α : Type} [DecidableEq α] (seen : List α)
    (l : List α) : ∀ a ∈ dedupAux seen l, a ∉ seen := by
  induction l generalizing seen with
  | nil => simp [dedupAux]
  | cons x xs ih =>
    intro a ha
    by_cases hx : x ∈ seen
    · rw [dedupAux, if_pos hx] at ha
      exact ih seen a ha
    · rw [dedupAux, if_neg hx] at ha
      rcases List.mem_cons.mp ha with rfl | ha
      · exact hx
      · intro hseen
        exact ih (x :: seen) a ha (List.mem_cons_of_mem _ hseen)

theorem dedupAux_nodup {α : Type} [DecidableEq α] (seen : List α)
    (l : List α) : (dedupAux seen l).Nodup := by
  induction l generalizing seen with
  | nil => simp [dedupAux]
  | cons x xs ih =>
    by_cases hx : x ∈ seen
    · simpa [dedupAux, if_pos hx] using ih seen
    · rw [dedupAux, if_neg hx]
      refine List.nodup_cons.mpr ⟨?_, ih (x :: seen)⟩
      intro hmem
      exact dedupAux_not_mem_seen (x :: seen) xs x hmem (by simp)

theorem dedupAux_mem {α : Type} [DecidableEq α] (seen : List α) (l : List α)
    (a : α) : a ∈ dedupAux seen l ↔ a ∈ l ∧ a ∉ seen := by
  induction l generalizing seen with
  | nil => simp [dedupAux]
  | cons x xs ih =>
    by_cases hx : x ∈ seen
    · rw [dedupAux, if_pos hx, ih seen]
      constructor
      · rintro ⟨h₁, h₂⟩
        exact ⟨List.mem_cons_of_mem _ h₁, h₂⟩
      · rintro ⟨h₁, h₂⟩
        rcases List.mem_cons.mp h₁ with rfl | h₁
        · exact absurd hx h₂
        · exact ⟨h₁, h₂⟩
    · rw [dedupAux, if_neg hx]
      constructor
      · intro h
        rcases List.mem_cons.mp h with rfl | h
        · exact ⟨by simp, hx⟩
        · have := (ih (x :: seen)).mp h
          exact ⟨List.mem_cons_of_mem _ this.1,
            fun hs => this.2 (List.mem_cons_of_mem _ hs)⟩
      · rintro ⟨h₁, h₂⟩
        rcases List.mem_cons.mp h₁ with rfl | h₁
        · simp
        · by_cases hax : a = x
          · subst hax; simp
          · exact List.mem_cons_of_mem _
              ((ih (x :: seen)).mpr ⟨h₁, by simp [hax, h₂]⟩)

theorem dedupFirst_nodup {α : Type} [DecidableEq α] (l : List α) :
    (dedupFirst l).Nodup := dedupAux_nodup [] l

theorem dedupFirst_sublist {α : Type} [DecidableEq α] (l : List α) :
    (dedupFirst l).Sublist l := dedupAux_sublist [] l

theorem dedupFirst_mem {α : Type} [DecidableEq α] (l : List α) (a : α) :
    a ∈ dedupFirst l ↔ a ∈ l := by
  rw [dedupFirst, dedupAux_mem]
  simp

theorem dedupFirst_headD {α : Type} [DecidableEq α] (l : List α) (d : α) :
    (dedupFirst l).headD d = l.headD d := by
  cases l with
  | nil => rfl
  | cons x xs => simp [dedupFirst, dedupAux]

/-- C3: for every input text, the `all` lists of `extract_basic_info` have
no duplicates and are subsequences of the raw match lists containing every
match (i.e. they keep first occurrences in document order), and the
primary email/phone is the first element of the corresponding `all` list
when non-empty and the sentinel `"Not found"` otherwise. -/
theorem extract_basic_info_spec (t : String) :
    (extract_basic_info t).emails.Nodup ∧
    (extract_basic_info t).phones.Nodup ∧
    (extract_basic_info t).emails.Sublist
      ((emailFindall t.toList).map String.mk) ∧
    (extract_basic_info t).phones.Sublist
      ((phoneFindall t.toList).map String.mk) ∧
    (∀ e, e ∈ (extract_basic_info t).emails ↔
      e ∈ (emailFindall t.toList).map String.mk) ∧
    (∀ p, p ∈ (extract_basic_info t).phones ↔
      p ∈ (phoneFindall t.toList).map String.mk) ∧
    (extract_basic_info t).email = (extract_basic_info t).emails.headD "Not found" ∧
    (extract_basic_info t).phone = (extract_basic_info t).phones.headD "Not found" := by
  refine ⟨dedupFirst_nodup _, dedupFirst_nodup _, dedupFirst_sublist _,
    dedupFirst_sublist _, fun e => dedupFirst_mem _ e, fun p => dedupFirst_mem _ p,
    ?_, ?_⟩
  · show ((emailFindall t.toList).map String.mk).headD "Not found" =
      (dedupFirst ((emailFindall t.toList).map String.mk)).headD "Not found"
    rw [dedupFirst_headD]
  · show ((phoneFindall t.toList).map String.mk).headD "Not found" =
      (dedupFirst ((phoneFindall t.toList).map String.mk)).headD "Not found"
    rw [dedupFirst_headD]

/- ### Stable sorting (Python `sorted` / `list.sort` are stable; for a
total preorder the stable sorted permutation is unique, so insertion sort
reproduces them exactly) -/

def insertLe {α : Type} (le : α → α → Bool) (x : α) : List α → List α
  | [] => [x]
  | y :: ys => if le x y then x :: y :: ys else y :: insertLe le x ys

def sortLe {α : Type} (le : α → α → Bool) : List α → List α
  | [] => []
  | x :: xs => insertLe le x (sortLe le xs)

theorem insertLe_perm {α : Type} (le : α → α → Bool) (x : α) (l : List α) :
    List.Perm (insertLe le x l) (x :: l) := by
  induction l with
  | nil => rfl
  | cons y ys ih =>
    by_cases h : le x y = true
    · simp [insertLe, h]
    · rw [insertLe, if_neg h]
      exact (ih.cons y).trans (List.Perm.swap x y ys)

theorem sortLe_perm {α : Type} (le : α → α → Bool) (l : List α) :
    List.Perm (sortLe le l) l := by
  induction l with
  | nil => rfl
  | cons x xs ih => exact (insertLe_perm le x (sortLe le xs)).trans (ih.cons x)

theorem mem_insertLe {α : Type} (le : α → α → Bool) (x a : α) (l : List α) :
    a ∈ insertLe le x l ↔ a = x ∨ a ∈ l := by
  rw [(insertLe_perm le x l).mem_iff]
  simp

theorem insertLe_pairwise {α : Type} (le : α → α → Bool)
    (htot : ∀ a b, le a b = true ∨ le b a = true)
    (htrans : ∀ a b c, le a b = true → le b c = true → le a c = true)
    (x : α) (l : List α) (h : l.Pairwise (fun a b => le a b = true)) :
    (insertLe le x l).Pairwise (fun a b => le a b = true) := by
  induction l with
  | nil => simp [insertLe]
  | cons y ys ih =>
    rcases List.pairwise_cons.mp h with ⟨hy, hys⟩
    by_cases hxy : le x y = true
    · rw [insertLe, if_pos hxy]
      refine List.pairwise_cons.mpr ⟨?_, h⟩
      intro z hz
      rcases List.mem_cons.mp hz with rfl | hz
      · exact hxy
      · exact htrans x y z hxy (hy z hz)
    · rw [insertLe, if_neg hxy]
      refine List.pairwise_cons.mpr ⟨?_, ih hys⟩
      intro z hz
      rcases (mem_insertLe le x z ys).mp hz with rfl | hz
      · rcases htot z y with h' | h'
        · exact absurd h' hxy
        · exact h'
      · exact hy z hz

theorem sortLe_pairwise {α : Type} (le : α → α → Bool)
    (htot : ∀ a b, le a b = true ∨ le b a = true)
    (htrans : ∀ a b c, le a b = true → le b c = true → le a c = true)
    (l : List α) :
    (sortLe le l).Pairwise (fun a b => le a b = true) := by
  induction l with
  | nil => simp [sortLe]
  | cons x xs ih => exact insertLe_pairwise le htot htrans x (sortLe le xs) ih

/- ### Stability of sorting by a descending numeric key -/

/-- The comparator used by `matched.sort(key=..., reverse=True)`:
descending order on a numeric key. -/
def descLe {α : Type} (k : α → Nat) (a b : α) : Bool := k b ≤ k a

theorem filter_insertLe_key {α : Type} (k : α → Nat) (c : Nat) (x : α)
    (l : List α) :
    (insertLe (descLe k) x l).filter (fun a => decide (k a = c)) =
      if k x = c then x :: l.filter (fun a => decide (k a = c))
      else l.filter (fun a => decide (k a = c)) := by
  induction l with
  | nil =>
    by_cases h : k x = c <;> simp [insertLe, List.filter_cons, h]
  | cons y ys ih =>
    by_cases hxy : descLe k x y = true
    · rw [insertLe, if_pos hxy]
      by_cases h : k x = c <;> simp [List.filter_cons, h]
    · rw [insertLe, if_neg hxy]
      have hlt : k x < k y := by
        simp [descLe] at hxy
        omega
      by_cases h : k x = c
      · have hy : ¬ k y = c := by omega
        rw [if_pos h]
        rw [List.filter_cons, List.filter_cons]
        rw [if_neg (by simp [hy]), if_neg (by simp [hy]), ih, if_pos h]
      · rw [if_neg h]
        rw [List.filter_cons, List.filter_cons]
        by_cases hyc : k y = c
        · rw [if_pos (by simp [hyc]), if_pos (by simp [hyc]), ih, if_neg h]
        · rw [if_neg (by simp [hyc]), if_neg (by simp [hyc]), ih, if_neg h]

/-- Sorting by a descending key is stable: the subsequence of elements
with any given key value is unchanged. -/
theorem filter_sortLe_key {α : Type} (k : α → Nat) (c : Nat) (l : List α) :
    (sortLe (descLe k) l).filter (fun a => decide (k a = c)) =
      l.filter (fun a => decide (k a = c)) := by
  induction l with
  | nil => rfl
  | cons x xs ih =>
    rw [sortLe, filter_insertLe_key]
    by_cases h : k x = c
    · rw [if_pos h, ih, List.filter_cons]
      simp [h]
    · rw [if_neg h, ih, List.filter_cons]
      simp [h]

/- ### Skill extraction -/

/-- The fixed skill vocabulary `SKILLS`. -/
def SKILLS : List String :=
  ["python", "java", "c", "c++", "c#", "javascript", "typescript", "php",
   "go", "ruby", "kotlin", "swift",
   "html", "css", "react", "angular", "vue", "node.js", "django", "flask",
   "sql", "mysql", "postgresql", "mongodb", "pandas", "numpy",
   "machine learning", "deep learning", "data analysis", "data science",
   "tensorflow", "pytorch", "scikit-learn",
   "excel", "git", "docker", "kubernetes", "linux"]

/-- Python's `\w` word class (ASCII range): letters, digits, underscore. -/
def isWordChar (c : Char) : Bool := c.isAlpha || c.isDigit || c = '_'

/-- Word-character test at index `j` of `cs`; out of range counts as
non-word (how `re` treats the ends of the subject string). -/
def wAt (cs : List Char) (j : Nat) : Bool :=
  match cs.get? j with
  | some c => isWordChar c
  | none => false

/-- `\b` at position `i`: word-ness changes between `cs[i-1]` and `cs[i]`. -/
def boundaryAt (cs : List Char) (i : Nat) : Bool :=
  (match i with
   | 0 => false
   | j + 1 => wAt cs j) != wAt cs i

/-- The pattern `\b<skill>\b` (the skill text is `re.escape`d, hence
literal) matches at position `i` of `cs`. -/
def matchesAt (sk cs : List Char) (i : Nat) : Bool :=
  ((cs.drop i).take sk.length == sk) && boundaryAt cs i &&
    boundaryAt cs (i + sk.length)

/-- `pattern.search(text)` for the compiled, case-insensitive skill
pattern: both pattern and subject are case-folded (ASCII `IGNORECASE`). -/
def skillFound (skill : String) (text : String) : Bool :=
  let cs := text.toList.map Char.toLower
  (List.range (cs.length + 1)).any
    (fun i => matchesAt (skill.toList.map Char.toLower) cs i)

/-- `build_skill_patterns` splits the vocabulary into multi-word and
single-word entries (order preserved). -/
def multiword_skills : List String :=
  SKILLS.filter (fun s => s.toList.contains ' ')

def singleword_skills : List String :=
  SKILLS.filter (fun s => !(s.toList.contains ' '))

/-- Python's `<` on strings (code-point lexicographic), applied to
`str.lower` keys — the comparator of `sorted(found, key=str.lower)`. -/
def lexLe : List Char → List Char → Bool
  | [], _ => true
  | _ :: _, [] => false
  | a :: as, b :: bs =>
    if a.toNat < b.toNat then true
    else if b.toNat < a.toNat then false
    else lexLe as bs

def caseLe (a b : String) : Bool :=
  lexLe (a.toList.map Char.toLower) (b.toList.map Char.toLower)

/-- `extract_skills`: check multi-word then single-word patterns, collect
the hits, and sort them case-insensitively.  (Python collects into a
`set` and sorts with `key=str.lower`; because the vocabulary entries are
pairwise distinct lowercase strings the sorted result does not depend on
the set's iteration order, and a stable insertion sort reproduces
`sorted` exactly.) -/
def extract_skills (text : String) : List String :=
  sortLe caseLe
    (multiword_skills.filter (fun s => skillFound s text) ++
      singleword_skills.filter (fun s => skillFound s text))

theorem lexLe_total : ∀ a b, lexLe a b = true ∨ lexLe b a = true
  | [], _ => Or.inl rfl
  | _ :: _, [] => Or.inr rfl
  | a :: as, b :: bs => by
    simp only [lexLe]
    rcases Nat.lt_trichotomy a.toNat b.toNat with h | h | h
    · left; rw [if_pos h]
    · have h1 : ¬ a.toNat < b.toNat := by omega
      have h2 : ¬ b.toNat < a.toNat := by omega
      rw [if_neg h1, if_neg h2, if_neg h2, if_neg h1]
      exact lexLe_total as bs
    · right; rw [if_pos h]

theorem lexLe_trans : ∀ a b c, lexLe a b = true → lexLe b c = true →
    lexLe a c = true
  | [], _, _, _, _ => rfl
  | _ :: _, [], _, h, _ => by simp [lexLe] at h
  | _ :: _, _ :: _, [], _, h => by simp [lexLe] at h
  | a :: as, b :: bs, c :: cs, h1, h2 => by
    simp only [lexLe] at h1 h2 ⊢
    rcases Nat.lt_trichotomy a.toNat b.toNat with hab | hab | hab
    · rcases Nat.lt_trichotomy b.toNat c.toNat with hbc | hbc | hbc
      · rw [if_pos (by omega)]
      · rw [if_pos (by omega)]
      · rw [if_neg (by omega), if_pos (by omega)] at h2
        exact absurd h2 (by simp)
    · rw [if_neg (by omega), if_neg (by omega)] at h1
      rcases Nat.lt_trichotomy b.toNat c.toNat with hbc | hbc | hbc
      · rw [if_pos (by omega)]
      · rw [if_neg (by omega), if_neg (by omega)] at h2 ⊢
        exact lexLe_trans as bs cs h1 h2
      · rw [if_neg (by omega), if_pos (by omega)] at h2
        exact absurd h2 (by simp)
    · rw [if_neg (by omega), if_pos (by omega)] at h1
      exact absurd h1 (by simp)

theorem caseLe_total (a b : String) : caseLe a b = true ∨ caseLe b a = true :=
  lexLe_total _ _

theorem caseLe_trans (a b c : String) (h1 : caseLe a b = true)
    (h2 : caseLe b c = true) : caseLe a c = true :=
  lexLe_trans _ _ _ h1 h2

theorem SKILLS_nodup : SKILLS.Nodup := by decide

/-- C4: for every input text, `extract_skills` returns a list drawn from
the fixed `SKILLS` vocabulary, without duplicates, sorted
case-insensitively (by code-point order of the lower-cased strings). -/
theorem extract_skills_spec (t : String) :
    (∀ s ∈ extract_skills t, s ∈ SKILLS) ∧
    (extract_skills t).Nodup ∧
    (extract_skills t).Pairwise (fun a b => caseLe a b = true) := by
  refine ⟨?_, ?_, ?_⟩
  · intro s hs
    have hmem := (sortLe_perm caseLe _).mem_iff.mp hs
    rcases List.mem_append.mp hmem with h | h
    · exact List.mem_of_mem_filter (List.mem_of_mem_filter h)
    · exact List.mem_of_mem_filter (List.mem_of_mem_filter h)
  · apply (sortLe_perm caseLe _).nodup_iff.mpr
    have hmulti : (multiword_skills.filter (fun s => skillFound s t)).Nodup :=
      (SKILLS_nodup.filter _).filter _
    have hsingle : (singleword_skills.filter (fun s => skillFound s t)).Nodup :=
      (SKILLS_nodup.filter _).filter _
    refine hmulti.append hsingle ?_
    intro a ha hb
    have ha' : a ∈ SKILLS.filter (fun s => s.toList.contains ' ') :=
      List.mem_of_mem_filter ha
    have hb' : a ∈ SKILLS.filter (fun s => !(s.toList.contains ' ')) :=
      List.mem_of_mem_filter hb
    have h1 : a.toList.contains ' ' = true := by
      simpa using (List.mem_filter.mp ha').2
    have h2 : (!(a.toList.contains ' ')) = true := by
      simpa using (List.mem_filter.mp hb').2
    rw [h1] at h2
    exact absurd h2 (by simp)
  · exact sortLe_pairwise caseLe caseLe_total caseLe_trans _

/- ### Section classification (education / experience) -/

/-- Python's substring test `p in l` (for strings), on character lists. -/
def isInfixL (p l : List Char) : Bool :=
  (List.range (l.length + 1)).any (fun i => (l.drop i).take p.length == p)

theorem isInfixL_iff (p l : List Char) : isInfixL p l = true ↔ p <:+: l := by
  constructor
  · intro h
    rcases List.any_eq_true.mp h with ⟨i, _, hi⟩
    have heq : (l.drop i).take p.length = p := beq_iff_eq.mp hi
    refine ⟨l.take i, (l.drop i).drop p.length, ?_⟩
    have h2 : p ++ (l.drop i).drop p.length = l.drop i := by
      calc p ++ (l.drop i).drop p.length
          = (l.drop i).take p.length ++ (l.drop i).drop p.length := by rw [heq]
        _ = l.drop i := List.take_append_drop _ _
    rw [List.append_assoc, h2, List.take_append_drop]
  · rintro ⟨s, t, hst⟩
    apply List.any_eq_true.mpr
    refine ⟨s.length, ?_, ?_⟩
    · have hle : s.length ≤ l.length := by
        rw [← hst]
        simp
      exact List.mem_range.mpr (by omega)
    · apply beq_iff_eq.mpr
      rw [← hst, List.append_assoc, List.drop_left, List.take_left]

theorem isInfixL_length {p l : List Char} (h : isInfixL p l = true) :
    p.length ≤ l.length :=
  ((isInfixL_iff p l).mp h).sublist.length_le

/-- The education keyword list `EDU_KEYWORDS`. -/
def EDU_KEYWORDS : List String :=
  ["education", "academic", "degree", "degrees", "college",
   "university", "b.tech", "btech", "b.e", "be", "bachelor",
   "master", "m.tech", "mtech", "bsc", "msc", "diploma"]

/-- The experience keyword list `EXP_KEYWORDS`. -/
def EXP_KEYWORDS : List String :=
  ["experience", "work experience", "professional experience",
   "employment", "internship", "intern", "company",
   "organization", "worked", "job", "role", "position"]

/-- `any(kw in lower for kw in EDU_KEYWORDS)`. -/
def has_edu_keyword (l : List Char) : Bool :=
  EDU_KEYWORDS.any (fun kw => isInfixL kw.toList l)

/-- `any(kw in lower for kw in EXP_KEYWORDS)`. -/
def has_exp_keyword (l : List Char) : Bool :=
  EXP_KEYWORDS.any (fun kw => isInfixL kw.toList l)

/-- `[ln.strip() for ln in text.split("\n") if ln.strip()]`. -/
def resume_lines (text : String) : List (List Char) :=
  ((splitOnChar '\n' text.toList).map pyStrip).filter (fun l => l ≠ [])

/-- The classification loop of `extract_sections`: lines shorter than 3
characters are skipped; a line containing an education keyword goes to the
education bucket and the loop `continue`s (education has priority); else a
line containing an experience keyword goes to the experience bucket. -/
def classifyLines : List (List Char) → List (List Char) × List (List Char)
  | [] => ([], [])
  | l :: ls =>
    let r := classifyLines ls
    let lower := l.map Char.toLower
    if lower.length < 3 then r
    else if has_edu_keyword lower then (l :: r.1, r.2)
    else if has_exp_keyword lower then (r.1, l :: r.2)
    else r

/-- `extract_sections`: classify the stripped non-empty lines, then
deduplicate each bucket keeping first occurrences. -/
def extract_sections (text : String) : List String × List String :=
  ((dedupFirst (classifyLines (resume_lines text)).1).map String.mk,
   (dedupFirst (classifyLines (resume_lines text)).2).map String.mk)

theorem mem_classify_fst {ls : List (List Char)} {s : List Char}
    (h : s ∈ (classifyLines ls).1) :
    has_edu_keyword (s.map Char.toLower) = true := by
  induction ls with
  | nil => simp [classifyLines] at h
  | cons l ls ih =>
    rw [classifyLines] at h
    by_cases h3 : (l.map Char.toLower).length < 3
    · rw [if_pos h3] at h
      exact ih h
    · rw [if_neg h3] at h
      by_cases hedu : has_edu_keyword (l.map Char.toLower) = true
      · rw [if_pos hedu] at h
        rcases List.mem_cons.mp h with rfl | h
        · exact hedu
        · exact ih h
      · rw [if_neg hedu] at h
        by_cases hexp : has_exp_keyword (l.map Char.toLower) = true
        · rw [if_pos hexp] at h
          exact ih h
        · rw [if_neg hexp] at h
          exact ih h

theorem mem_classify_snd {ls : List (List Char)} {s : List Char}
    (h : s ∈ (classifyLines ls).2) :
    has_edu_keyword (s.map Char.toLower) = false ∧
      has_exp_keyword (s.map Char.toLower) = true := by
  induction ls with
  | nil => simp [classifyLines] at h
  | cons l ls ih =>
    rw [classifyLines] at h
    by_cases h3 : (l.map Char.toLower).length < 3
    · rw [if_pos h3] at h
      exact ih h
    · rw [if_neg h3] at h
      by_cases hedu : has_edu_keyword (l.map Char.toLower) = true
      · rw [if_pos hedu] at h
        exact ih h
      · rw [if_neg hedu] at h
        by_cases hexp : has_exp_keyword (l.map Char.toLower) = true
        · rw [if_pos hexp] at h
          rcases List.mem_cons.mp h with rfl | h
          · exact ⟨Bool.eq_false_iff.mpr hedu, hexp⟩
          · exact ih h
        · rw [if_neg hexp] at h
          exact ih h

theorem classify_fst_of_mem {ls : List (List Char)} {s : List Char}
    (hmem : s ∈ ls) (hlen : 3 ≤ s.length)
    (hedu : has_edu_keyword (s.map Char.toLower) = true) :
    s ∈ (classifyLines ls).1 := by
  induction ls with
  | nil => simp at hmem
  | cons l ls ih =>
    rw [classifyLines]
    rcases List.mem_cons.mp hmem with rfl | hmem
    · rw [if_neg (by simp [List.length_map]; omega), if_pos hedu]
      simp
    · by_cases h3 : (l.map Char.toLower).length < 3
      · rw [if_pos h3]
        exact ih hmem
      · rw [if_neg h3]
        by_cases hl : has_edu_keyword (l.map Char.toLower) = true
        · rw [if_pos hl]
          exact List.mem_cons_of_mem _ (ih hmem)
        · rw [if_neg hl]
          by_cases hx : has_exp_keyword (l.map Char.toLower) = true
          · rw [if_pos hx]
            exact ih hmem
          · rw [if_neg hx]
            exact ih hmem

theorem exp_keyword_min_length : ∀ kw ∈ EXP_KEYWORDS, 3 ≤ kw.toList.length := by
  decide

theorem length_of_has_exp {l : List Char} (h : has_exp_keyword l = true) :
    3 ≤ l.length := by
  rcases List.any_eq_true.mp h with ⟨kw, hkw, hinf⟩
  exact le_trans (exp_keyword_min_length kw hkw) (isInfixL_length hinf)

/-- C2: the two lists returned by `extract_sections` are disjoint, and a
line whose lower-cased form contains both an education keyword and an
experience keyword lands in the education list only. -/
theorem extract_sections_disjoint (t : String) :
    (∀ s, s ∈ (extract_sections t).1 → s ∉ (extract_sections t).2) ∧
    (∀ l, l ∈ resume_lines t →
      has_edu_keyword (l.map Char.toLower) = true →
      has_exp_keyword (l.map Char.toLower) = true →
      String.mk l ∈ (extract_sections t).1 ∧
        String.mk l ∉ (extract_sections t).2) := by
  have hfst : ∀ s : List Char, String.mk s ∈ (extract_sections t).1 ↔
      s ∈ dedupFirst (classifyLines (resume_lines t)).1 := by
    intro s
    constructor
    · intro h
      rcases List.mem_map.mp h with ⟨a, ha, hae⟩
      have hA : a = s := congrArg String.data hae
      subst hA
      exact ha
    · intro h
      exact List.mem_map.mpr ⟨s, h, rfl⟩
  have hsnd : ∀ s : List Char, String.mk s ∈ (extract_sections t).2 ↔
      s ∈ dedupFirst (classifyLines (resume_lines t)).2 := by
    intro s
    constructor
    · intro h
      rcases List.mem_map.mp h with ⟨a, ha, hae⟩
      have hA : a = s := congrArg String.data hae
      subst hA
      exact ha
    · intro h
      exact List.mem_map.mpr ⟨s, h, rfl⟩
  constructor
  · intro s hs hs2
    rcases List.mem_map.mp hs with ⟨a, ha, rfl⟩
    have ha' := (dedupFirst_mem _ _).mp ha
    have hb := (hsnd a).mp hs2
    have hb' := (dedupFirst_mem _ _).mp hb
    have h1 := mem_classify_fst ha'
    have h2 := (mem_classify_snd hb').1
    rw [h1] at h2
    exact absurd h2 (by simp)
  · intro l hl hedu hexp
    have hlen : 3 ≤ l.length := by
      have := length_of_has_exp hexp
      simpa [List.length_map] using this
    have hin : l ∈ (classifyLines (resume_lines t)).1 :=
      classify_fst_of_mem hl hlen hedu
    refine ⟨(hfst l).mpr ((dedupFirst_mem _ _).mpr hin), ?_⟩
    intro hcontra
    have hb := (hsnd l).mp hcontra
    have hb' := (dedupFirst_mem _ _).mp hb
    have h2 := (mem_classify_snd hb').1
    rw [hedu] at h2
    exact absurd h2 (by simp)

/-- C2 witness: a concrete line containing both keyword families is
classified as education only. -/
theorem extract_sections_disjoint_witness :
    String.mk "education and work experience".toList ∈
      (extract_sections "education and work experience").1 ∧
    String.mk "education and work experience".toList ∉
      (extract_sections "education and work experience").2 :=
  (extract_sections_disjoint "education and work experience").2
    "education and work experience".toList (by decide) (by decide) (by decide)

/- ### The main parser (`parse_resume`) -/

structure ParsedContact where
  email : String
  phone : String
  all_emails : List String
  all_phones : List String
deriving Repr, DecidableEq

structure ParsedSummary where
  total_skills_found : Nat
  education_lines : Nat
  experience_lines : Nat
  raw_text_length : Nat
deriving Repr, DecidableEq

structure ParsedData where
  contact : ParsedContact
  skills : List String
  education : List String
  experience : List String
  summary : ParsedSummary
deriving Repr, DecidableEq

/-- The two shapes returned by `parse_resume`: `{"error": raw_text,
"parsed_data": {}}` (nothing but the error populated) or the parsed-data
record. -/
inductive ParseResult where
  | failure (err : String)
  | ok (d : ParsedData)
deriving Repr, DecidableEq

/-- The read-failure sentinel prefixes produced by the external document
reader (`read_pdf` / `read_docx` / `read_resume`). -/
def read_error_sentinels : List String :=
  ["PDF error:", "DOCX error:", "File not found!", "Unsupported"]

/-- Python `str.startswith`, via character lists (kernel-reducible). -/
def pyStartsWith (s p : String) : Bool := p.toList.isPrefixOf s.toList

/-- `parse_resume` on the raw text returned by the external reader
(`read_resume` does the I/O; the core logic starts at the sentinel
check).  If the raw text starts with a read-failure sentinel, the
function short-circuits to a failure record and no extraction runs;
otherwise both cleaning strategies and all four extractors run. -/
def parse_resume (raw_text : String) : ParseResult :=
  if read_error_sentinels.any (fun p => pyStartsWith raw_text p) then
    .failure raw_text
  else
    let cleaned_text := clean_text raw_text
    let cleaned_for_sections := clean_text_keep_lines raw_text
    let basic_info := extract_basic_info cleaned_text
    let skills := extract_skills cleaned_text
    let sections := extract_sections cleaned_for_sections
    .ok
      { contact :=
          { email := basic_info.email
            phone := basic_info.phone
            all_emails := basic_info.emails
            all_phones := basic_info.phones }
        skills := skills
        education := sections.1
        experience := sections.2
        summary :=
          { total_skills_found := skills.length
            education_lines := sections.1.length
            experience_lines := sections.2.length
            raw_text_length := raw_text.length } }

/-- C8: raw text beginning with a read-failure sentinel short-circuits
`parse_resume`: the result carries only the error text (the raw text
itself) and no parsed fields — no extraction step contributes to it. -/
theorem parse_resume_sentinel (t : String)
    (h : pyStartsWith t "PDF error:" = true ∨
         pyStartsWith t "DOCX error:" = true ∨
         pyStartsWith t "File not found!" = true ∨
         pyStartsWith t "Unsupported" = true) :
    parse_resume t = ParseResult.failure t := by
  rw [parse_resume, if_pos]
  apply List.any_eq_true.mpr
  rcases h with h | h | h | h
  · exact ⟨"PDF error:", by simp [read_error_sentinels], h⟩
  · exact ⟨"DOCX error:", by simp [read_error_sentinels], h⟩
  · exact ⟨"File not found!", by simp [read_error_sentinels], h⟩
  · exact ⟨"Unsupported", by simp [read_error_sentinels], h⟩

/-- C8 witness: a concrete sentinel text. -/
theorem parse_resume_sentinel_witness :
    parse_resume "PDF error: cannot open broken.pdf" =
      ParseResult.failure "PDF error: cannot open broken.pdf" :=
  parse_resume_sentinel "PDF error: cannot open broken.pdf"
    (Or.inl (by decide))

/-- The single-line scenario text of the specification. -/
def scenario_text : String :=
  "Contact: jane.doe@example.com, +91 9876543210. Skills: Python, SQL. Education: B.Tech CS. Experience: Intern at Acme."

/-- The experience list of a parse result, when the parse succeeded. -/
def result_experience : ParseResult → Option (List String)
  | .failure _ => none
  | .ok d => some d.experience

/-- C1 counterexample: on the scenario text the parse succeeds, but the
experience list is empty — not "exactly one experience line" as claimed
(the whole text is a single line, which the classifier assigns to the
education bucket only, education keywords having priority). -/
theorem parse_resume_scenario_no_experience :
    result_experience (parse_resume scenario_text) = some [] := by
  rfl

/-- C1 (amended): the record built by `parse_resume` from the scenario
text has primary email `jane.doe@example.com`, primary phone
`+91 9876543210` (whose digits include 9876543210), skills exactly
`["python", "sql"]`, exactly one education line, and an empty experience
list. -/
theorem parse_resume_scenario_spec :
    parse_resume scenario_text = ParseResult.ok
      { contact :=
          { email := "jane.doe@example.com"
            phone := "+91 9876543210"
            all_emails := ["jane.doe@example.com"]
            all_phones := ["+91 9876543210"] }
        skills := ["python", "sql"]
        education := [scenario_text]
        experience := []
        summary :=
          { total_skills_found := 2
            education_lines := 1
            experience_lines := 0
            raw_text_length := 117 } } := by
  rfl

/- ### Skill search (`search_by_skill`) -/

/-- A parsed-resume entry as seen by the search engine: its file metadata
(of arbitrary type `α`, copied verbatim into results), its skill list,
and an optional error string (the `"error" in resume` key test). -/
structure Resume (α : Type) where
  file_info : α
  skills : List String
  err : Option String
deriving Repr, DecidableEq

inductive MatchType where
  | exactMatch
  | partialMatch
deriving Repr, DecidableEq

structure SearchMatch (α : Type) where
  file_info : α
  matched_skills : List (String × MatchType)
  total_skills : Nat
  match_count : Nat
deriving Repr, DecidableEq

/-- Python's `str.lower` (ASCII model). -/
def pyLower (s : String) : String := String.mk (s.toList.map Char.toLower)

/-- The per-skill matching step of the inner loop of `search_by_skill`:
`q` is the already-normalized query, `rs` one stored skill of the record.
With `partial_match`, substring containment in either direction matches,
classified `partialMatch` when the query is strictly shorter than the
(normalized) skill, else `exactMatch`; without it, only exact equality
matches. -/
def skill_match (case_sensitive partial_match : Bool) (q rs : String) :
    Option (String × MatchType) :=
  if partial_match then
    if isInfixL q.toList (if case_sensitive then rs else pyLower rs).toList ||
        isInfixL (if case_sensitive then rs else pyLower rs).toList q.toList then
      some (rs,
        if q.length < (if case_sensitive then rs else pyLower rs).length
        then .partialMatch else .exactMatch)
    else none
  else
    if q = (if case_sensitive then rs else pyLower rs) then
      some (rs, .exactMatch)
    else none

/-- Query normalization: `skill.lower().strip()` unless case-sensitive. -/
def normalizeQuery (case_sensitive : Bool) (skill : String) : String :=
  if case_sensitive then skill
  else String.mk (pyStrip ((pyLower skill).toList))

/-- The pre-sort search loop: skip records carrying an error, collect the
per-skill matches, and keep records with at least one match, in
collection order. -/
def search_matched {α : Type} (q : String)
    (case_sensitive partial_match : Bool) :
    List (Resume α) → List (SearchMatch α)
  | [] => []
  | r :: rest =>
    if r.err.isSome then search_matched q case_sensitive partial_match rest
    else
      let ms := r.skills.filterMap (skill_match case_sensitive partial_match q)
      if ms.isEmpty then search_matched q case_sensitive partial_match rest
      else
        ⟨r.file_info, ms, r.skills.length, ms.length⟩ ::
          search_matched q case_sensitive partial_match rest

/-- `search_by_skill`: guard against empty query/collection, normalize the
query, collect matches, and stable-sort by descending match count
(`matched.sort(key=..., reverse=True)`). -/
def search_by_skill {α : Type} (resumes : List (Resume α)) (skill : String)
    (case_sensitive partial_match : Bool) : List (SearchMatch α) :=
  if skill = "" || resumes.isEmpty then []
  else
    sortLe (descLe (fun m => m.match_count))
      (search_matched (normalizeQuery case_sensitive skill)
        case_sensitive partial_match resumes)

/- ### C7: error records are skipped; empty query/collection yields [] -/

theorem search_matched_filter_err {α : Type} (resumes : List (Resume α))
    (q : String) (cs pm : Bool) :
    search_matched q cs pm resumes =
      search_matched q cs pm (resumes.filter (fun r => r.err = none)) := by
  induction resumes with
  | nil => rfl
  | cons r rest ih =>
    cases herr : r.err with
    | some e =>
      rw [search_matched, if_pos (show r.err.isSome = true by simp [herr]),
        List.filter_cons,
        if_neg (show ¬(decide (r.err = none) = true) by simp [herr]), ih]
    | none =>
      rw [search_matched, if_neg (show ¬(r.err.isSome = true) by simp [herr]),
        List.filter_cons,
        if_pos (show decide (r.err = none) = true by simp [herr]),
        search_matched, if_neg (show ¬(r.err.isSome = true) by simp [herr]), ih]

/-- C7: `search_by_skill` never draws a result from a record that carries
an error (searching the collection equals searching its error-free
restriction, even when the error record still carries skill data), and an
empty query or an empty collection yields the empty result list. -/
theorem search_by_skill_error_handling {α : Type} (resumes : List (Resume α))
    (q : String) (cs pm : Bool) :
    search_by_skill resumes q cs pm =
      search_by_skill (resumes.filter (fun r => r.err = none)) q cs pm ∧
    search_by_skill resumes "" cs pm = [] ∧
    search_by_skill ([] : List (Resume α)) q cs pm = [] ∧
    search_by_skill [Resume.mk () ["python", "sql"] (some "PDF error: boom")]
      "python" false true = [] := by
  refine ⟨?_, ?_, ?_, ?_⟩
  · by_cases hq : q = ""
    · subst hq
      rw [search_by_skill, search_by_skill]
      rw [if_pos (by simp), if_pos (by simp)]
    · cases hres : resumes with
      | nil => rfl
      | cons r rest =>
        rw [search_by_skill, if_neg (by simp [hq])]
        rw [search_by_skill]
        cases hfil : (r :: rest).filter (fun r => r.err = none) with
        | nil =>
          rw [if_pos (by simp [hfil])]
          have hnone : search_matched (normalizeQuery cs q) cs pm (r :: rest) =
              ([] : List (SearchMatch α)) := by
            rw [search_matched_filter_err, hfil]
            rfl
          rw [hnone]
          rfl
        | cons s srest =>
          rw [if_neg (by simp [hq, hfil])]
          rw [search_matched_filter_err, hfil]
  · rw [search_by_skill, if_pos (by simp)]
  · rw [search_by_skill, if_pos (by simp)]
  · rfl

/- ### C6: the matching/classification rule of `search_by_skill` -/

/-- C6: with `partial_match` the per-skill rule of `search_by_skill`
matches exactly when the normalized query is a substring of the
normalized skill or vice versa, classifying the match `partialMatch`
exactly when the query is strictly shorter than the skill and
`exactMatch` otherwise; without `partial_match` it matches exactly on
string equality, always classified `exactMatch`.  Concretely, query
`"py"` on skill `"python"` gives a partial match and query `"python"` on
skill `"python"` an exact one. -/
theorem skill_match_spec (cs : Bool) (q rs : String) :
    (((q.toList <:+: (if cs then rs else pyLower rs).toList) ∨
      ((if cs then rs else pyLower rs).toList <:+: q.toList)) →
      skill_match cs true q rs =
        some (rs, if q.length < (if cs then rs else pyLower rs).length
          then MatchType.partialMatch else MatchType.exactMatch)) ∧
    ((¬((q.toList <:+: (if cs then rs else pyLower rs).toList) ∨
      ((if cs then rs else pyLower rs).toList <:+: q.toList))) →
      skill_match cs true q rs = none) ∧
    (skill_match cs false q rs =
      (if q = (if cs then rs else pyLower rs)
        then some (rs, MatchType.exactMatch) else none)) ∧
    skill_match false true "py" "python" =
      some ("python", MatchType.partialMatch) ∧
    skill_match false true "python" "python" =
      some ("python", MatchType.exactMatch) := by
  refine ⟨?_, ?_, ?_, by decide, by decide⟩
  · intro h
    rw [skill_match, if_pos rfl, if_pos]
    rcases h with h | h
    · have hb := (isInfixL_iff _ _).mpr h
      rw [hb]
      simp
    · have hb := (isInfixL_iff _ _).mpr h
      rw [hb]
      simp
  · intro h
    rw [skill_match, if_pos rfl, if_neg]
    intro hcontra
    rcases (Bool.or_eq_true _ _) ▸ hcontra with h' | h'
    · exact h (Or.inl ((isInfixL_iff _ _).mp h'))
    · exact h (Or.inr ((isInfixL_iff _ _).mp h'))
  · rw [skill_match, if_neg (by simp)]

/-- C6 witness: the general clauses applied at concrete inputs. -/
theorem skill_match_spec_witness :
    skill_match false true "py" "python" =
      some ("python", MatchType.partialMatch) ∧
    skill_match false true "xyz" "python" = none := by
  constructor
  · exact (skill_match_spec false "py" "python").1
      (Or.inl ⟨[], ['t', 'h', 'o', 'n'], by decide⟩)
  · exact (skill_match_spec false "xyz" "python").2.1 (by decide)

/- ### C5: result ordering of `search_by_skill` -/

theorem descLe_total {α : Type} (k : α → Nat) (a b : α) :
    descLe k a b = true ∨ descLe k b a = true := by
  by_cases h : k b ≤ k a
  · exact Or.inl (decide_eq_true h)
  · exact Or.inr (decide_eq_true (by omega))

theorem descLe_trans {α : Type} (k : α → Nat) (a b c : α)
    (h1 : descLe k a b = true) (h2 : descLe k b c = true) :
    descLe k a c = true := by
  have g1 : k b ≤ k a := of_decide_eq_true h1
  have g2 : k c ≤ k b := of_decide_eq_true h2
  exact decide_eq_true (le_trans g2 g1)

/-- C5: `search_by_skill` results are sorted by descending match count,
and the sort is stable: for every count value, the subsequence of results
with that count equals the corresponding subsequence of the pre-sort
match list (which is in input-collection order).  Concretely, three
records with match counts 1, 3, 2 come out in the order 3, 2, 1. -/
theorem search_by_skill_ranking {α : Type} (resumes : List (Resume α))
    (skill : String) (cs pm : Bool) :
    (search_by_skill resumes skill cs pm).Pairwise
      (fun a b => b.match_count ≤ a.match_count) ∧
    (∀ c : Nat,
      (search_by_skill resumes skill cs pm).filter
          (fun m : SearchMatch α => decide (m.match_count = c)) =
        (if skill = "" || resumes.isEmpty then []
         else search_matched (normalizeQuery cs skill) cs pm resumes).filter
          (fun m : SearchMatch α => decide (m.match_count = c))) ∧
    search_by_skill
        [Resume.mk "a" ["java", "python", "sql"] none,
         Resume.mk "b" ["python", "pytorch", "pyspark"] none,
         Resume.mk "c" ["python", "pytest", "go"] none] "py" false true =
      [SearchMatch.mk "b"
         [("python", .partialMatch), ("pytorch", .partialMatch),
          ("pyspark", .partialMatch)] 3 3,
       SearchMatch.mk "c"
         [("python", .partialMatch), ("pytest", .partialMatch)] 3 2,
       SearchMatch.mk "a" [("python", .partialMatch)] 3 1] := by
  refine ⟨?_, ?_, by decide⟩
  · rw [search_by_skill]
    by_cases hg : (decide (skill = "") || resumes.isEmpty) = true
    · rw [if_pos hg]
      exact List.Pairwise.nil
    · rw [if_neg hg]
      have h := sortLe_pairwise
        (descLe (fun m : SearchMatch α => m.match_count))
        (descLe_total _) (descLe_trans _)
        (search_matched (normalizeQuery cs skill) cs pm resumes)
      exact h.imp (fun hab => of_decide_eq_true hab)
  · intro c
    rw [search_by_skill]
    by_cases hg : (decide (skill = "") || resumes.isEmpty) = true
    · rw [if_pos hg, if_pos hg]
    · rw [if_neg hg, if_neg hg]
      exact filter_sortLe_key (fun m : SearchMatch α => m.match_count) c _

/- ### C10: skills ending in a non-word character (`c++`, `c#`) -/

theorem mem_extract_skills_found {s t : String} (h : s ∈ extract_skills t) :
    skillFound s t = true := by
  have hmem := (sortLe_perm caseLe _).mem_iff.mp h
  rcases List.mem_append.mp hmem with h' | h'
  · exact (List.mem_filter.mp h').2
  · exact (List.mem_filter.mp h').2

theorem get?_of_take_drop {cs sk : List Char} {i n j : Nat}
    (h : (cs.drop i).take n = sk) (hj : j < n) :
    cs.get? (i + j) = sk.get? j := by
  have := congrArg (fun l => l.get? j) h
  simp only at this
  rw [List.get?_take hj, List.get?_drop] at this
  exact this

/-- A `\bc\+\+\b` match forces the character right after the occurrence to
be a word character: the `+` before the final boundary is non-word, so the
boundary holds only when word-ness flips back on. -/
theorem matchesAt_cpp_word {cs : List Char} {i : Nat}
    (h : matchesAt ['c', '+', '+'] cs i = true) :
    (cs.drop i).take 3 = ['c', '+', '+'] ∧ wAt cs (i + 3) = true := by
  rw [matchesAt] at h
  rcases (Bool.and_eq_true _ _) ▸ h with ⟨h', hC⟩
  rcases (Bool.and_eq_true _ _) ▸ h' with ⟨hA, _⟩
  have htake : (cs.drop i).take 3 = ['c', '+', '+'] := beq_iff_eq.mp hA
  refine ⟨htake, ?_⟩
  have hplus : cs.get? (i + 2) = some '+' := get?_of_take_drop htake (by omega)
  have hw2 : wAt cs (i + 2) = false := by
    rw [wAt, hplus]
    rfl
  have hC3 : boundaryAt cs (i + 3) = true := hC
  have hbnd : boundaryAt cs (i + 3) = (wAt cs (i + 2) != wAt cs (i + 3)) := rfl
  rw [hbnd, hw2] at hC3
  simpa using hC3

/-- Same for `\bc#\b`. -/
theorem matchesAt_csharp_word {cs : List Char} {i : Nat}
    (h : matchesAt ['c', '#'] cs i = true) :
    (cs.drop i).take 2 = ['c', '#'] ∧ wAt cs (i + 2) = true := by
  rw [matchesAt] at h
  rcases (Bool.and_eq_true _ _) ▸ h with ⟨h', hC⟩
  rcases (Bool.and_eq_true _ _) ▸ h' with ⟨hA, _⟩
  have htake : (cs.drop i).take 2 = ['c', '#'] := beq_iff_eq.mp hA
  refine ⟨htake, ?_⟩
  have hsharp : cs.get? (i + 1) = some '#' := get?_of_take_drop htake (by omega)
  have hw1 : wAt cs (i + 1) = false := by
    rw [wAt, hsharp]
    rfl
  have hC2 : boundaryAt cs (i + 2) = true := hC
  have hbnd : boundaryAt cs (i + 2) = (wAt cs (i + 1) != wAt cs (i + 2)) := rfl
  rw [hbnd, hw1] at hC2
  simpa using hC2

theorem skillFound_cpp_word (t : String) (h : skillFound "c++" t = true) :
    ∃ i, ((t.toList.map Char.toLower).drop i).take 3 = ['c', '+', '+'] ∧
      wAt (t.toList.map Char.toLower) (i + 3) = true := by
  rcases List.any_eq_true.mp h with ⟨i, _, hm⟩
  have hsk : ("c++".toList.map Char.toLower) = ['c', '+', '+'] := by decide
  rw [hsk] at hm
  exact ⟨i, matchesAt_cpp_word hm⟩

theorem skillFound_csharp_word (t : String) (h : skillFound "c#" t = true) :
    ∃ i, ((t.toList.map Char.toLower).drop i).take 2 = ['c', '#'] ∧
      wAt (t.toList.map Char.toLower) (i + 2) = true := by
  rcases List.any_eq_true.mp h with ⟨i, _, hm⟩
  have hsk : ("c#".toList.map Char.toLower) = ['c', '#'] := by decide
  rw [hsk] at hm
  exact ⟨i, matchesAt_csharp_word hm⟩

theorem occurrence_lt_length {cs sk : List Char} {i n : Nat}
    (h : (cs.drop i).take n = sk) (hpos : 0 < sk.length) : i < cs.length := by
  have hlen := congrArg List.length h
  rw [List.length_take, List.length_drop] at hlen
  omega

/-- C10: because every skill pattern is wrapped in `\b` boundaries, the
vocabulary entries ending in a non-word character (`c++`, `c#`) match
only when the occurrence is immediately followed by a word character
(letter, digit or underscore); `wAt … = false` covers whitespace,
punctuation and the end of the text.  In particular
`extract_skills "c++" = ["c"]` (the single-letter skill `c` matches, the
skill `c++` does not), and whenever every occurrence of `c++` (resp.
`c#`) in the case-folded text is not followed by a word character, that
skill is absent from the result. -/
theorem cpp_csharp_unmatchable :
    extract_skills "c++" = ["c"] ∧
    (∀ t : String, skillFound "c++" t = true →
      ∃ i, ((t.toList.map Char.toLower).drop i).take 3 = ['c', '+', '+'] ∧
        wAt (t.toList.map Char.toLower) (i + 3) = true) ∧
    (∀ t : String, skillFound "c#" t = true →
      ∃ i, ((t.toList.map Char.toLower).drop i).take 2 = ['c', '#'] ∧
        wAt (t.toList.map Char.toLower) (i + 2) = true) ∧
    (∀ t : String,
      (∀ i < (t.toList.map Char.toLower).length,
        ((t.toList.map Char.toLower).drop i).take 3 = ['c', '+', '+'] →
        wAt (t.toList.map Char.toLower) (i + 3) = false) →
      "c++" ∉ extract_skills t) ∧
    (∀ t : String,
      (∀ i < (t.toList.map Char.toLower).length,
        ((t.toList.map Char.toLower).drop i).take 2 = ['c', '#'] →
        wAt (t.toList.map Char.toLower) (i + 2) = false) →
      "c#" ∉ extract_skills t) := by
  refine ⟨by decide, skillFound_cpp_word, skillFound_csharp_word, ?_, ?_⟩
  · intro t hyp hmem
    rcases skillFound_cpp_word t (mem_extract_skills_found hmem) with
      ⟨i, hocc, hword⟩
    have hlt : i < (t.toList.map Char.toLower).length :=
      occurrence_lt_length hocc (by decide)
    rw [hyp i hlt hocc] at hword
    exact absurd hword (by simp)
  · intro t hyp hmem
    rcases skillFound_csharp_word t (mem_extract_skills_found hmem) with
      ⟨i, hocc, hword⟩
    have hlt : i < (t.toList.map Char.toLower).length :=
      occurrence_lt_length hocc (by decide)
    rw [hyp i hlt hocc] at hword
    exact absurd hword (by simp)

/-- C10 witness: in a text where `c++` and `c#` are followed by a space
(or the end of the text), neither skill is detected. -/
theorem cpp_csharp_unmatchable_witness :
    "c++" ∉ extract_skills "uses c++ and c# daily" ∧
    "c#" ∉ extract_skills "uses c++ and c# daily" :=
  ⟨cpp_csharp_unmatchable.2.2.2.1 "uses c++ and c# daily" (by decide),
   cpp_csharp_unmatchable.2.2.2.2 "uses c++ and c# daily" (by decide)⟩

end ResumeParser
